import Mathlib

set_option linter.unusedSectionVars false

/-!
Shallow embedding of `src/models/matcher.py` (the DETR-style Hungarian
matcher of this repository).

Numeric tensor entries are embedded over an arbitrary linear ordered field
`α` (instantiated at `ℚ` in concrete witnesses).  The softmax that the code
applies to the logits (`outputs["pred_logits"].flatten(0,1).softmax(-1)`)
is embedded with the exponential map abstracted as a parameter `expo`;
every theorem below is proved for all `expo`, in particular for the real
exponential used by the code.

Tensors are embedded as nested lists: a `[bs, P, C]` tensor is a
`List (List (List α))`, a box tensor row is a `Box α` (a 4-vector).
-/

namespace SurvDETR

/-- A 4-component box vector.  For center-size form the components read
`(cx, cy, w, h)`; for corner form they read `(xmin, ymin, xmax, ymax)`. -/
structure Box (α : Type) where
  c0 : α
  c1 : α
  c2 : α
  c3 : α
deriving DecidableEq, Repr

variable {α : Type} [LinearOrderedField α]

/-- The all-zero box, used as the out-of-range default for list indexing. -/
def defaultBox : Box α := ⟨0, 0, 0, 0⟩

/-- Modelled from the spec: `util.box_ops.box_cxcywh_to_xyxy` is imported by
`matcher.py` but its file is not under `src/`; the spec describes it as the
pure elementwise conversion `(cx,cy,w,h) → (x_min,y_min,x_max,y_max)`. -/
def box_cxcywh_to_xyxy (b : Box α) : Box α :=
  ⟨b.c0 - b.c2 / 2, b.c1 - b.c3 / 2, b.c0 + b.c2 / 2, b.c1 + b.c3 / 2⟩

/-- Area of a corner-form box. -/
def boxArea (b : Box α) : α := (b.c2 - b.c0) * (b.c3 - b.c1)

/-- Intersection area of two corner-form boxes (side lengths clamped at 0,
so the intersection of disjoint boxes is 0). -/
def interArea (a b : Box α) : α :=
  max 0 (min a.c2 b.c2 - max a.c0 b.c0) * max 0 (min a.c3 b.c3 - max a.c1 b.c1)

/-- Union area of two corner-form boxes. -/
def unionArea (a b : Box α) : α := boxArea a + boxArea b - interArea a b

/-- Ordinary intersection-over-union of two corner-form boxes. -/
def box_iou (a b : Box α) : α := interArea a b / unionArea a b

/-- Area of the smallest enclosing box of two corner-form boxes. -/
def enclosingArea (a b : Box α) : α :=
  max 0 (max a.c2 b.c2 - min a.c0 b.c0) * max 0 (max a.c3 b.c3 - min a.c1 b.c1)

/-- Modelled from the spec: `util.box_ops.generalized_box_iou` is imported by
`matcher.py` but its file is not under `src/`; the spec defines it as
ordinary IoU minus the penalty
`(enclosing area − union area) / enclosing area`. -/
def generalized_box_iou (a b : Box α) : α :=
  box_iou a b - (enclosingArea a b - unionArea a b) / enclosingArea a b

/-- Manhattan (L1) distance between two 4-vectors; this is one entry of
`torch.cdist(out_bbox, tgt_bbox, p=1)`. -/
def l1dist (a b : Box α) : α :=
  |a.c0 - b.c0| + |a.c1 - b.c1| + |a.c2 - b.c2| + |a.c3 - b.c3|

/-- Row softmax (`Tensor.softmax(-1)`), with the exponential map abstracted
as `expo`; the code instantiates it with the real exponential. -/
def softmax (expo : α → α) (v : List α) : List α :=
  v.map fun x => expo x / (v.map expo).sum

/-- The matcher object: the three construction-time cost weights
(`self.cost_class`, `self.cost_bbox`, `self.cost_giou`). -/
structure HungarianMatcher (α : Type) where
  cost_class : α
  cost_bbox : α
  cost_giou : α
deriving DecidableEq, Repr

/-- `HungarianMatcher.__init__`: stores the three weights and asserts
`cost_class != 0 or cost_bbox != 0 or cost_giou != 0`; a failed assert
raises, i.e. construction yields no object (`none`). -/
def HungarianMatcher.init (cost_class cost_bbox cost_giou : α) :
    Option (HungarianMatcher α) :=
  if cost_class ≠ 0 ∨ cost_bbox ≠ 0 ∨ cost_giou ≠ 0 then
    some ⟨cost_class, cost_bbox, cost_giou⟩
  else none

/-- The `outputs` dict: `pred_logits : [bs, P, C]`, `pred_boxes : [bs, P, 4]`. -/
structure Outputs (α : Type) where
  pred_logits : List (List (List α))
  pred_boxes : List (List (Box α))

/-- One element of the `targets` list: `labels : [G]`, `boxes : [G, 4]`. -/
structure Target (α : Type) where
  labels : List ℕ
  boxes : List (Box α)

/-- The empty target, used as the out-of-range default for list indexing. -/
def defaultTarget : Target α := ⟨[], []⟩

/-- Sum of the cost-matrix entries of `M` at a list of (row, col) pairs. -/
def assignCost (M : List (List α)) (l : List (ℕ × ℕ)) : α :=
  (l.map fun p => (M.getD p.1 []).getD p.2 0).sum

/-- All candidate row-index sequences for an assignment of size `k` on `P`
rows: the strictly increasing length-`k` sequences drawn from `[0, P)`. -/
def rowChoices (P k : ℕ) : List (List ℕ) :=
  List.sublistsLen k (List.range P)

/-- All candidate column-index sequences for an assignment of size `k` on
`G` columns: the duplicate-free length-`k` sequences drawn from `[0, G)`. -/
def colChoices (G k : ℕ) : List (List ℕ) :=
  (List.sublistsLen k (List.range G)).flatMap List.permutations

/-- All valid assignments of size `min P G` on a `P × G` matrix, presented
with strictly increasing row indices (the presentation
`scipy.optimize.linear_sum_assignment` documents). -/
def candidates (P G : ℕ) : List (List (ℕ × ℕ)) :=
  (rowChoices P (min P G)).flatMap fun rs =>
    (colChoices G (min P G)).map fun cs => rs.zip cs

/-- First cost-minimizer of `x :: xs` in enumeration order (a deterministic
tie-break). -/
def pickMin (cost : List (ℕ × ℕ) → α) (x : List (ℕ × ℕ))
    (xs : List (List (ℕ × ℕ))) : List (ℕ × ℕ) :=
  xs.foldl (fun b y => if cost y < cost b then y else b) x

/-- The assignment the solver selects on matrix `M`: the first minimum-cost
valid assignment in enumeration order. -/
def lsaPairs (M : List (List α)) : List (ℕ × ℕ) :=
  match candidates M.length (M.headD []).length with
  | [] => []
  | x :: xs => pickMin (assignCost M) x xs

/-- Modelled from the spec: `scipy.optimize.linear_sum_assignment` is an
external dependency whose code is not under `src/`; the spec's
AssignmentSolver contract requires an exact, deterministic minimum-cost
assignment on the possibly-rectangular cost matrix, returned as a pair of
index arrays with sorted row indices. -/
def linear_sum_assignment (M : List (List α)) : List ℕ × List ℕ :=
  ((lsaPairs M).map Prod.fst, (lsaPairs M).map Prod.snd)

/-- `out_prob = outputs["pred_logits"].flatten(0,1).softmax(-1)`. -/
def outProb (expo : α → α) (o : Outputs α) : List (List α) :=
  o.pred_logits.flatten.map (softmax expo)

/-- `out_bbox = outputs["pred_boxes"].flatten(0,1)`. -/
def outBbox (o : Outputs α) : List (Box α) := o.pred_boxes.flatten

/-- `tgt_ids = torch.cat([v["labels"] for v in targets])`. -/
def tgtIds (ts : List (Target α)) : List ℕ := (ts.map Target.labels).flatten

/-- `tgt_bbox = torch.cat([v["boxes"] for v in targets])`. -/
def tgtBbox (ts : List (Target α)) : List (Box α) :=
  (ts.map Target.boxes).flatten

/-- One entry of `C = cost_bbox * cost_bbox_mat + cost_class * cost_class_mat
+ cost_giou * cost_giou_mat` for a prediction with softmax row `prob` and box
`pb` against a target with class `cid` and box `tb`:
`cost_class_mat = -out_prob[:, tgt_ids]`, `cost_bbox_mat = cdist(..., p=1)`,
`cost_giou_mat = -generalized_box_iou(...)`. -/
def combinedCost (m : HungarianMatcher α) (prob : List α) (pb : Box α)
    (cid : ℕ) (tb : Box α) : α :=
  m.cost_bbox * l1dist pb tb + m.cost_class * (-(prob.getD cid 0)) +
    m.cost_giou *
      (-(generalized_box_iou (box_cxcywh_to_xyxy pb) (box_cxcywh_to_xyxy tb)))

/-- The global cost matrix `C` of `HungarianMatcher.forward` before the
`view`/`split`: rows are the flattened `(bs·P)` predictions, columns the
concatenated targets. -/
def costMatrixGlobal (m : HungarianMatcher α) (expo : α → α) (o : Outputs α)
    (ts : List (Target α)) : List (List α) :=
  ((outProb expo o).zip (outBbox o)).map fun pr =>
    ((tgtIds ts).zip (tgtBbox ts)).map fun tg =>
      combinedCost m pr.1 pr.2 tg.1 tg.2

/-- `sizes = [len(v["boxes"]) for v in targets]`. -/
def tgtSizes (ts : List (Target α)) : List ℕ := ts.map fun t => t.boxes.length

/-- Starting column of batch element `b` in the concatenated target axis. -/
def colOffset (sizes : List ℕ) (b : ℕ) : ℕ := (sizes.take b).sum

/-- `c[b]` for `c` the `b`-th chunk of `C.view(bs, P, -1).split(sizes, -1)`:
rows `b·P … b·P+P−1` of the global matrix, restricted to batch element `b`'s
contiguous column block. -/
def sliceAt (Cg : List (List α)) (P : ℕ) (sizes : List ℕ) (b : ℕ) :
    List (List α) :=
  ((Cg.drop (b * P)).take P).map fun row =>
    (row.drop (colOffset sizes b)).take (sizes.getD b 0)

/-- `HungarianMatcher.forward`: build the global cost matrix, split it per
batch element, and solve the LSAP on each slice. -/
def HungarianMatcher.forward (m : HungarianMatcher α) (expo : α → α)
    (o : Outputs α) (ts : List (Target α)) : List (List ℕ × List ℕ) :=
  (List.range ts.length).map fun b =>
    linear_sum_assignment
      (sliceAt (costMatrixGlobal m expo o ts)
        (o.pred_logits.headD []).length (tgtSizes ts) b)

/-- State-passing form of `forward`: the Python method body contains no
assignment to `self`, so the post-call object is the pre-call object. -/
def HungarianMatcher.forwardS (m : HungarianMatcher α) (expo : α → α)
    (o : Outputs α) (ts : List (Target α)) :
    HungarianMatcher α × List (List ℕ × List ℕ) :=
  (m, m.forward expo o ts)

/-- Following the spec's words (refinement target for the
concatenate-then-split pattern): the cost matrix computed from one batch
element's predictions and targets alone. -/
def perBatchCostMatrix (m : HungarianMatcher α) (expo : α → α)
    (plogits : List (List α)) (pboxes : List (Box α)) (t : Target α) :
    List (List α) :=
  ((plogits.map (softmax expo)).zip pboxes).map fun pr =>
    (t.labels.zip t.boxes).map fun tg =>
      combinedCost m pr.1 pr.2 tg.1 tg.2

/-- Shape coherence of the inputs (the caller contract of §7 of the spec):
batch dimensions agree, every logits/boxes row has the common query count
`P`, and each target's label and box counts agree. -/
def WellFormed (o : Outputs α) (ts : List (Target α)) (P : ℕ) : Prop :=
  o.pred_logits.length = ts.length ∧
  o.pred_boxes.length = ts.length ∧
  (∀ r ∈ o.pred_logits, r.length = P) ∧
  (∀ r ∈ o.pred_boxes, r.length = P) ∧
  ∀ t ∈ ts, t.labels.length = t.boxes.length

/-! ### Solver lemmas -/

lemma pickMin_mem (cost : List (ℕ × ℕ) → α) (x : List (ℕ × ℕ))
    (xs : List (List (ℕ × ℕ))) : pickMin cost x xs ∈ x :: xs := by
  induction xs generalizing x with
  | nil => simp [pickMin]
  | cons z zs ih =>
    have hstep : pickMin cost x (z :: zs) =
        pickMin cost (if cost z < cost x then z else x) zs := rfl
    rw [hstep]
    rcases List.mem_cons.1 (ih (if cost z < cost x then z else x)) with h1 | h2
    · rw [h1]
      by_cases hc : cost z < cost x <;> simp [hc]
    · simp [h2]

lemma pickMin_le (cost : List (ℕ × ℕ) → α) (x : List (ℕ × ℕ))
    (xs : List (List (ℕ × ℕ))) :
    ∀ y ∈ x :: xs, cost (pickMin cost x xs) ≤ cost y := by
  induction xs generalizing x with
  | nil =>
    intro y hy
    rcases List.mem_cons.1 hy with h1 | h2
    · rw [h1]; exact le_refl _
    · cases h2
  | cons z zs ih =>
    intro y hy
    have hstep : pickMin cost x (z :: zs) =
        pickMin cost (if cost z < cost x then z else x) zs := rfl
    rw [hstep]
    have hx' : cost (if cost z < cost x then z else x) ≤ cost x ∧
        cost (if cost z < cost x then z else x) ≤ cost z := by
      by_cases hc : cost z < cost x <;> simp [hc]
      · exact le_of_lt hc
      · exact le_of_not_lt hc
    have hmin := ih (if cost z < cost x then z else x)
    rcases List.mem_cons.1 hy with h1 | h2
    · rw [h1]
      exact le_trans (hmin _ (List.mem_cons_self _ _)) hx'.1
    rcases List.mem_cons.1 h2 with h3 | h4
    · rw [h3]
      exact le_trans (hmin _ (List.mem_cons_self _ _)) hx'.2
    · exact hmin y (List.mem_cons_of_mem _ h4)

lemma mem_candidates {P G : ℕ} {l : List (ℕ × ℕ)} :
    l ∈ candidates P G ↔
      ∃ (rs cs : List ℕ), rs.Sublist (List.range P) ∧ rs.length = min P G ∧
        (∃ (s : List ℕ), s.Sublist (List.range G) ∧ s.length = min P G ∧
          cs.Perm s) ∧
        l = rs.zip cs := by
  constructor
  · intro h
    obtain ⟨rs, hrs, hmap⟩ := List.mem_flatMap.1 h
    obtain ⟨cs, hcs, rfl⟩ := List.mem_map.1 hmap
    obtain ⟨hrs_sub, hrs_len⟩ := List.mem_sublistsLen.1 hrs
    obtain ⟨s, hsmem, hperm⟩ := List.mem_flatMap.1 hcs
    obtain ⟨hs_sub, hs_len⟩ := List.mem_sublistsLen.1 hsmem
    exact ⟨rs, cs, hrs_sub, hrs_len,
      ⟨s, hs_sub, hs_len, List.mem_permutations.1 hperm⟩, rfl⟩
  · rintro ⟨rs, cs, hrs_sub, hrs_len, ⟨s, hs_sub, hs_len, hperm⟩, rfl⟩
    refine List.mem_flatMap.2 ⟨rs, List.mem_sublistsLen.2 ⟨hrs_sub, hrs_len⟩, ?_⟩
    refine List.mem_map.2 ⟨cs, ?_, rfl⟩
    exact List.mem_flatMap.2 ⟨s, List.mem_sublistsLen.2 ⟨hs_sub, hs_len⟩,
      List.mem_permutations.2 hperm⟩

lemma candidates_ne_nil (P G : ℕ) : candidates P G ≠ [] := by
  apply List.ne_nil_of_mem (a := ((List.range P).take (min P G)).zip
    ((List.range G).take (min P G)))
  refine mem_candidates.2 ⟨(List.range P).take (min P G),
    (List.range G).take (min P G), List.take_sublist _ _, ?_,
    ⟨(List.range G).take (min P G), List.take_sublist _ _, ?_, List.Perm.refl _⟩,
    rfl⟩
  · rw [List.length_take, List.length_range]
    omega
  · rw [List.length_take, List.length_range]
    omega

lemma lsaPairs_mem (M : List (List α)) :
    lsaPairs M ∈ candidates M.length (M.headD []).length := by
  unfold lsaPairs
  split
  · rename_i heq
    exact absurd heq (candidates_ne_nil _ _)
  · rename_i x xs heq
    rw [heq]
    exact pickMin_mem _ _ _

lemma lsaPairs_le (M : List (List α)) :
    ∀ l ∈ candidates M.length (M.headD []).length,
      assignCost M (lsaPairs M) ≤ assignCost M l := by
  intro l hl
  unfold lsaPairs
  split
  · rename_i heq
    exact absurd heq (candidates_ne_nil _ _)
  · rename_i x xs heq
    rw [heq] at hl
    exact pickMin_le _ _ _ l hl

lemma assignCost_perm (M : List (List α)) {l₁ l₂ : List (ℕ × ℕ)}
    (h : l₁.Perm l₂) : assignCost M l₁ = assignCost M l₂ :=
  (h.map _).sum_eq

lemma pairwise_lt_sublist_range' :
    ∀ (n a : ℕ) (l : List ℕ), l.Pairwise (· < ·) →
      (∀ x ∈ l, a ≤ x ∧ x < a + n) → l.Sublist (List.range' a n) := by
  intro n
  induction n with
  | zero =>
    intro a l _ hb
    cases l with
    | nil => simp
    | cons x xs => exact absurd (hb x (List.mem_cons_self _ _)) (by omega)
  | succ n ih =>
    intro a l hp hb
    rw [List.range'_succ]
    cases l with
    | nil => exact List.nil_sublist _
    | cons x xs =>
      have hx := hb x (List.mem_cons_self _ _)
      obtain ⟨hhead, htail⟩ := List.pairwise_cons.1 hp
      by_cases hxa : x = a
      · subst hxa
        refine List.Sublist.cons₂ x (ih (x + 1) xs htail ?_)
        intro y hy
        have := hhead y hy
        have := (hb y (List.mem_cons_of_mem _ hy)).2
        omega
      · refine List.Sublist.cons a (ih (a + 1) (x :: xs) hp ?_)
        intro y hy
        rcases List.mem_cons.1 hy with h1 | h2
        · omega
        · have := hhead y h2
          have := (hb y (List.mem_cons_of_mem _ h2)).2
          omega

lemma pairwise_lt_sublist_range {n : ℕ} {l : List ℕ}
    (hp : l.Pairwise (· < ·)) (hb : ∀ x ∈ l, x < n) :
    l.Sublist (List.range n) := by
  rw [List.range_eq_range']
  refine pairwise_lt_sublist_range' n 0 l hp fun x hx => ⟨Nat.zero_le _, ?_⟩
  have := hb x hx
  omega

lemma candidate_shape {P G : ℕ} {l : List (ℕ × ℕ)} (h : l ∈ candidates P G) :
    l.length = min P G ∧ (l.map Prod.fst).Pairwise (· < ·) ∧
      (l.map Prod.fst).Nodup ∧ (l.map Prod.snd).Nodup ∧
      ∀ p ∈ l, p.1 < P ∧ p.2 < G := by
  obtain ⟨rs, cs, hrs_sub, hrs_len, ⟨s, hs_sub, hs_len, hcs⟩, rfl⟩ :=
    mem_candidates.1 h
  have hcs_len : cs.length = min P G := by rw [hcs.length_eq, hs_len]
  have hfst : (rs.zip cs).map Prod.fst = rs :=
    List.map_fst_zip rs cs (by omega)
  have hsnd : (rs.zip cs).map Prod.snd = cs :=
    List.map_snd_zip rs cs (by omega)
  have hrs_pair : rs.Pairwise (· < ·) :=
    List.Pairwise.sublist hrs_sub (List.pairwise_lt_range P)
  have hs_nodup : s.Nodup := List.Nodup.sublist hs_sub (List.nodup_range G)
  have hcs_nodup : cs.Nodup := hcs.nodup_iff.2 hs_nodup
  refine ⟨?_, ?_, ?_, ?_, ?_⟩
  · rw [List.length_zip, hrs_len, hcs_len]
    exact min_self _
  · rw [hfst]; exact hrs_pair
  · rw [hfst]; exact List.Pairwise.imp (fun h => Nat.ne_of_lt h) hrs_pair
  · rw [hsnd]; exact hcs_nodup
  · intro p hp
    obtain ⟨hp1, hp2⟩ := List.of_mem_zip hp
    constructor
    · exact List.mem_range.1 (hrs_sub.subset hp1)
    · exact List.mem_range.1 (hs_sub.subset (hcs.subset hp2))

lemma exists_candidate_perm {P G : ℕ} (l : List (ℕ × ℕ))
    (hf : (l.map Prod.fst).Nodup) (hs : (l.map Prod.snd).Nodup)
    (hb : ∀ p ∈ l, p.1 < P ∧ p.2 < G) (hl : l.length = min P G) :
    ∃ l₂ ∈ candidates P G, l₂.Perm l := by
  haveI : IsTotal (ℕ × ℕ) fun p q => p.1 ≤ q.1 :=
    ⟨fun a b => Nat.le_total a.1 b.1⟩
  haveI : IsTrans (ℕ × ℕ) fun p q => p.1 ≤ q.1 :=
    ⟨fun _ _ _ => Nat.le_trans⟩
  set l' := l.insertionSort fun p q => p.1 ≤ q.1 with hl'
  have hperm : l'.Perm l := List.perm_insertionSort _ _
  have hsorted : l'.Pairwise fun p q => p.1 ≤ q.1 :=
    List.sorted_insertionSort _ _
  have hmem : ∀ p ∈ l', p.1 < P ∧ p.2 < G := fun p hp => hb p (hperm.subset hp)
  have hfst_nodup : (l'.map Prod.fst).Nodup :=
    ((hperm.map Prod.fst).nodup_iff).2 hf
  have hsnd_nodup : (l'.map Prod.snd).Nodup :=
    ((hperm.map Prod.snd).nodup_iff).2 hs
  have hfst_le : (l'.map Prod.fst).Sorted (· ≤ ·) :=
    hsorted.map Prod.fst fun _ _ hpq => hpq
  have hfst_lt : (l'.map Prod.fst).Pairwise (· < ·) :=
    hfst_le.lt_of_le hfst_nodup
  have hfst_bound : ∀ x ∈ l'.map Prod.fst, x < P := by
    intro x hx
    obtain ⟨p, hp, rfl⟩ := List.mem_map.1 hx
    exact (hmem p hp).1
  have hfst_sub : (l'.map Prod.fst).Sublist (List.range P) :=
    pairwise_lt_sublist_range hfst_lt hfst_bound
  set s := (l'.map Prod.snd).insertionSort (· ≤ ·) with hsdef
  have hs_perm : s.Perm (l'.map Prod.snd) := List.perm_insertionSort _ _
  have hs_nodup : s.Nodup := hs_perm.nodup_iff.2 hsnd_nodup
  have hs_lt : s.Pairwise (· < ·) :=
    (List.sorted_insertionSort _ _).lt_of_le hs_nodup
  have hs_bound : ∀ x ∈ s, x < G := by
    intro x hx
    obtain ⟨p, hp, rfl⟩ := List.mem_map.1 (hs_perm.subset hx)
    exact (hmem p hp).2
  have hs_sub : s.Sublist (List.range G) :=
    pairwise_lt_sublist_range hs_lt hs_bound
  have hlen' : l'.length = min P G := by rw [hperm.length_eq, hl]
  have hzip : (l'.map Prod.fst).zip (l'.map Prod.snd) = l' := by
    clear hl' hsorted hmem hfst_nodup hsnd_nodup hfst_le hfst_lt hfst_bound
    induction l' with
    | nil => rfl
    | cons p ps ih => simp [ih]
  refine ⟨l', mem_candidates.2 ⟨l'.map Prod.fst, l'.map Prod.snd, hfst_sub,
    by rw [List.length_map, hlen'], ⟨s, hs_sub, ?_, hs_perm.symm⟩, hzip.symm⟩,
    hperm⟩
  rw [hs_perm.length_eq, List.length_map, hlen']

/-! ### Flatten / indexing lemmas -/

lemma length_flatten_uniform {β : Type} (P : ℕ) :
    ∀ (L : List (List β)), (∀ x ∈ L, x.length = P) →
      L.flatten.length = L.length * P := by
  intro L
  induction L with
  | nil => intro _; simp
  | cons x L ih =>
    intro h
    simp only [List.flatten_cons, List.length_append, List.length_cons]
    rw [h x (List.mem_cons_self _ _), ih fun y hy => h y (List.mem_cons_of_mem _ hy),
      Nat.succ_mul]
    ring

lemma flatten_getD_uniform {β : Type} (d : β) (P : ℕ) :
    ∀ (L : List (List β)) (b r : ℕ), (∀ x ∈ L, x.length = P) →
      b < L.length → r < P →
      L.flatten.getD (b * P + r) d = (L.getD b []).getD r d := by
  intro L
  induction L with
  | nil => intro b r _ hb _; simp at hb
  | cons x L ih =>
    intro b r hP hb hr
    have hx : x.length = P := hP x (List.mem_cons_self _ _)
    cases b with
    | zero =>
      simp only [List.flatten_cons, Nat.zero_mul, Nat.zero_add]
      rw [List.getD_append _ _ _ _ (by omega), List.getD_cons_zero]
    | succ b' =>
      simp only [List.flatten_cons]
      have hmul : (b' + 1) * P + r = x.length + (b' * P + r) := by
        rw [hx, Nat.succ_mul]
        ring
      rw [hmul, List.getD_append_right _ _ _ _ (Nat.le_add_right _ _),
        Nat.add_sub_cancel_left, List.getD_cons_succ]
      exact ih b' r (fun y hy => hP y (List.mem_cons_of_mem _ hy))
        (by simpa using hb) hr

lemma flatten_getD_sum {β : Type} (d : β) :
    ∀ (L : List (List β)) (b c : ℕ), b < L.length →
      c < (L.getD b []).length →
      L.flatten.getD (((L.take b).map List.length).sum + c) d =
        (L.getD b []).getD c d := by
  intro L
  induction L with
  | nil => intro b c hb _; simp at hb
  | cons x L ih =>
    intro b c hb hc
    cases b with
    | zero =>
      simp only [List.take_zero, List.map_nil, List.sum_nil, Nat.zero_add,
        List.flatten_cons, List.getD_cons_zero]
      rw [List.getD_append _ _ _ _ (by simpa using hc)]
    | succ b' =>
      simp only [List.take_succ_cons, List.map_cons, List.sum_cons,
        List.flatten_cons, List.getD_cons_succ]
      rw [Nat.add_assoc, List.getD_append_right _ _ _ _ (Nat.le_add_right _ _),
        Nat.add_sub_cancel_left]
      exact ih b' c (by simpa using hb) (by simpa using hc)

lemma getD_mem_of_lt {β : Type} (L : List β) (d : β) {b : ℕ}
    (hb : b < L.length) : L.getD b d ∈ L := by
  rw [List.getD_eq_getElem L d hb]
  exact L.getElem_mem hb

/-! ### Dimension lemmas under shape coherence -/

lemma logits_row_len {o : Outputs α} {ts : List (Target α)} {P b : ℕ}
    (hwf : WellFormed o ts P) (hb : b < ts.length) :
    (o.pred_logits.getD b []).length = P :=
  hwf.2.2.1 _ (getD_mem_of_lt _ _ (by rw [hwf.1]; exact hb))

lemma boxes_row_len {o : Outputs α} {ts : List (Target α)} {P b : ℕ}
    (hwf : WellFormed o ts P) (hb : b < ts.length) :
    (o.pred_boxes.getD b []).length = P :=
  hwf.2.2.2.1 _ (getD_mem_of_lt _ _ (by rw [hwf.2.1]; exact hb))

lemma target_labels_len {o : Outputs α} {ts : List (Target α)} {P b : ℕ}
    (hwf : WellFormed o ts P) (hb : b < ts.length) :
    (ts.getD b defaultTarget).labels.length =
      (ts.getD b defaultTarget).boxes.length :=
  hwf.2.2.2.2 _ (getD_mem_of_lt _ _ hb)

lemma tgtSizes_getD {ts : List (Target α)} {b : ℕ} (hb : b < ts.length) :
    (tgtSizes ts).getD b 0 = (ts.getD b defaultTarget).boxes.length := by
  rw [tgtSizes, List.getD_eq_getElem _ _ (by simpa using hb),
    List.getElem_map, List.getD_eq_getElem _ _ hb]

lemma outProb_len {expo : α → α} {o : Outputs α} {ts : List (Target α)}
    {P : ℕ} (hwf : WellFormed o ts P) :
    (outProb expo o).length = ts.length * P := by
  rw [outProb, List.length_map, length_flatten_uniform P _ hwf.2.2.1, hwf.1]

lemma outBbox_len {o : Outputs α} {ts : List (Target α)} {P : ℕ}
    (hwf : WellFormed o ts P) : (outBbox o).length = ts.length * P := by
  rw [outBbox, length_flatten_uniform P _ hwf.2.2.2.1, hwf.2.1]

lemma tgtIds_len {o : Outputs α} {ts : List (Target α)} {P : ℕ}
    (hwf : WellFormed o ts P) : (tgtIds ts).length = (tgtSizes ts).sum := by
  rw [tgtIds, List.length_flatten, List.map_map, tgtSizes]
  exact congrArg List.sum (List.map_congr_left fun t ht => hwf.2.2.2.2 t ht)

lemma tgtBbox_len {ts : List (Target α)} :
    (tgtBbox ts).length = (tgtSizes ts).sum := by
  rw [tgtBbox, List.length_flatten, List.map_map, tgtSizes]
  exact congrArg List.sum (List.map_congr_left fun t _ => rfl)

lemma costMatrixGlobal_length {m : HungarianMatcher α} {expo : α → α}
    {o : Outputs α} {ts : List (Target α)} {P : ℕ}
    (hwf : WellFormed o ts P) :
    (costMatrixGlobal m expo o ts).length = ts.length * P := by
  rw [costMatrixGlobal, List.length_map, List.length_zip, outProb_len hwf,
    outBbox_len hwf, min_self]

lemma costMatrixGlobal_row_len {m : HungarianMatcher α} {expo : α → α}
    {o : Outputs α} {ts : List (Target α)} {P : ℕ}
    (hwf : WellFormed o ts P) {row : List α}
    (hrow : row ∈ costMatrixGlobal m expo o ts) :
    row.length = (tgtSizes ts).sum := by
  obtain ⟨pr, _, rfl⟩ := List.mem_map.1 hrow
  rw [List.length_map, List.length_zip, tgtIds_len hwf, tgtBbox_len, min_self]

lemma getD_map_of_lt {β γ : Type} (f : β → γ) (L : List β) (dβ : β)
    (dγ : γ) {n : ℕ} (hn : n < L.length) :
    (L.map f).getD n dγ = f (L.getD n dβ) := by
  rw [List.getD_eq_getElem _ _ (by simpa using hn), List.getElem_map,
    List.getD_eq_getElem _ _ hn]

lemma getD_zip_of_lt {β γ : Type} (L₁ : List β) (L₂ : List γ) (d₁ : β)
    (d₂ : γ) {n : ℕ} (h₁ : n < L₁.length) (h₂ : n < L₂.length) :
    (L₁.zip L₂).getD n (d₁, d₂) = (L₁.getD n d₁, L₂.getD n d₂) := by
  rw [List.getD_eq_getElem _ _ (by rw [List.length_zip]; omega),
    List.getElem_zip, List.getD_eq_getElem _ _ h₁,
    List.getD_eq_getElem _ _ h₂]

lemma costMatrixGlobal_getD {m : HungarianMatcher α} {expo : α → α}
    {o : Outputs α} {ts : List (Target α)} {P : ℕ}
    (hwf : WellFormed o ts P) {i j : ℕ} (hi : i < ts.length * P)
    (hj : j < (tgtSizes ts).sum) :
    ((costMatrixGlobal m expo o ts).getD i []).getD j 0 =
      combinedCost m ((outProb expo o).getD i []) ((outBbox o).getD i defaultBox)
        ((tgtIds ts).getD j 0) ((tgtBbox ts).getD j defaultBox) := by
  have hiz : i < ((outProb expo o).zip (outBbox o)).length := by
    rw [List.length_zip, outProb_len hwf, outBbox_len hwf, min_self]
    exact hi
  have hjz : j < ((tgtIds ts).zip (tgtBbox ts)).length := by
    rw [List.length_zip, tgtIds_len hwf, tgtBbox_len, min_self]
    exact hj
  have hA : i < (outProb expo o).length := by rw [outProb_len hwf]; exact hi
  have hB : i < (outBbox o).length := by rw [outBbox_len hwf]; exact hi
  have hI : j < (tgtIds ts).length := by rw [tgtIds_len hwf]; exact hj
  have hT : j < (tgtBbox ts).length := by rw [tgtBbox_len]; exact hj
  rw [costMatrixGlobal, getD_map_of_lt _ _ ([], defaultBox) _ hiz,
    getD_zip_of_lt _ _ _ _ hA hB, getD_map_of_lt _ _ (0, defaultBox) _ hjz,
    getD_zip_of_lt _ _ _ _ hI hT]

/-! ### Slice characterization -/

lemma colOffset_add_le {ts : List (Target α)} {b : ℕ} (hb : b < ts.length) :
    colOffset (tgtSizes ts) b + (tgtSizes ts).getD b 0 ≤ (tgtSizes ts).sum := by
  have hb' : b < (tgtSizes ts).length := by
    rw [tgtSizes, List.length_map]
    exact hb
  rw [colOffset, List.getD_eq_getElem _ _ hb', ← List.sum_take_succ _ b hb']
  conv_rhs => rw [← List.take_append_drop (b + 1) (tgtSizes ts)]
  rw [List.sum_append]
  exact Nat.le_add_right _ _

lemma row_lt_total {ts : List (Target α)} {P b r : ℕ} (hb : b < ts.length)
    (hr : r < P) : b * P + r < ts.length * P := by
  have hmul : (b + 1) * P ≤ ts.length * P := Nat.mul_le_mul_right P hb
  rw [Nat.succ_mul] at hmul
  omega

lemma sliceAt_length {m : HungarianMatcher α} {expo : α → α} {o : Outputs α}
    {ts : List (Target α)} {P b : ℕ} (hwf : WellFormed o ts P)
    (hb : b < ts.length) :
    (sliceAt (costMatrixGlobal m expo o ts) P (tgtSizes ts) b).length = P := by
  have hmul : (b + 1) * P ≤ ts.length * P := Nat.mul_le_mul_right P hb
  rw [Nat.succ_mul] at hmul
  rw [sliceAt, List.length_map, List.length_take, List.length_drop,
    costMatrixGlobal_length hwf]
  omega

lemma sliceAt_row_len {m : HungarianMatcher α} {expo : α → α} {o : Outputs α}
    {ts : List (Target α)} {P b : ℕ} (hwf : WellFormed o ts P)
    (hb : b < ts.length) {row : List α}
    (hrow : row ∈ sliceAt (costMatrixGlobal m expo o ts) P (tgtSizes ts) b) :
    row.length = (tgtSizes ts).getD b 0 := by
  obtain ⟨row0, hrow0, rfl⟩ := List.mem_map.1 hrow
  have hmem : row0 ∈ costMatrixGlobal m expo o ts :=
    List.drop_subset _ _ (List.take_subset _ _ hrow0)
  have hoff := colOffset_add_le hb
  rw [List.length_take, List.length_drop, costMatrixGlobal_row_len hwf hmem]
  omega

lemma sliceAt_getD {m : HungarianMatcher α} {expo : α → α} {o : Outputs α}
    {ts : List (Target α)} {P b : ℕ} (hwf : WellFormed o ts P)
    (hb : b < ts.length) {r c : ℕ} (hr : r < P)
    (hc : c < (tgtSizes ts).getD b 0) :
    ((sliceAt (costMatrixGlobal m expo o ts) P (tgtSizes ts) b).getD r []).getD
        c 0 =
      ((costMatrixGlobal m expo o ts).getD (b * P + r) []).getD
        (colOffset (tgtSizes ts) b + c) 0 := by
  have hlenCg : (costMatrixGlobal m expo o ts).length = ts.length * P :=
    costMatrixGlobal_length hwf
  have harith : b * P + r < ts.length * P := row_lt_total hb hr
  have hmul : (b + 1) * P ≤ ts.length * P := Nat.mul_le_mul_right P hb
  rw [Nat.succ_mul] at hmul
  have htkdr : (((costMatrixGlobal m expo o ts).drop (b * P)).take P).length
      = P := by
    rw [List.length_take, List.length_drop, hlenCg]
    omega
  rw [sliceAt, getD_map_of_lt _ _ [] _ (by rw [htkdr]; exact hr)]
  have hrow : (((costMatrixGlobal m expo o ts).drop (b * P)).take P).getD r []
      = (costMatrixGlobal m expo o ts).getD (b * P + r) [] := by
    rw [List.getD_eq_getElem _ _ (by rw [htkdr]; exact hr),
      List.getElem_take, List.getElem_drop,
      List.getD_eq_getElem _ _ (by rw [hlenCg]; exact harith)]
  rw [hrow]
  have hrowlen : ((costMatrixGlobal m expo o ts).getD (b * P + r) []).length
      = (tgtSizes ts).sum :=
    costMatrixGlobal_row_len hwf
      (getD_mem_of_lt _ _ (by rw [hlenCg]; exact harith))
  have hoff := colOffset_add_le hb
  rw [List.getD_eq_getElem _ _
      (by rw [List.length_take, List.length_drop, hrowlen]; omega),
    List.getElem_take, List.getElem_drop]
  exact (List.getD_eq_getElem _ _ (by rw [hrowlen]; omega)).symm

lemma colOffset_labels {o : Outputs α} {ts : List (Target α)} {P : ℕ}
    (hwf : WellFormed o ts P) (b : ℕ) :
    (((ts.map Target.labels).take b).map List.length).sum =
      colOffset (tgtSizes ts) b := by
  rw [colOffset, tgtSizes, ← List.map_take, ← List.map_take, List.map_map]
  exact congrArg List.sum
    (List.map_congr_left fun t ht => hwf.2.2.2.2 t (List.take_subset _ _ ht))

lemma colOffset_boxes {ts : List (Target α)} (b : ℕ) :
    (((ts.map Target.boxes).take b).map List.length).sum =
      colOffset (tgtSizes ts) b := by
  rw [colOffset, tgtSizes, ← List.map_take, ← List.map_take, List.map_map]
  exact congrArg List.sum (List.map_congr_left fun t _ => rfl)

lemma sliceAt_entry {m : HungarianMatcher α} {expo : α → α} {o : Outputs α}
    {ts : List (Target α)} {P b : ℕ} (hwf : WellFormed o ts P)
    (hb : b < ts.length) {r c : ℕ} (hr : r < P)
    (hc : c < (ts.getD b defaultTarget).boxes.length) :
    ((sliceAt (costMatrixGlobal m expo o ts) P (tgtSizes ts) b).getD r []).getD
        c 0 =
      combinedCost m (softmax expo ((o.pred_logits.getD b []).getD r []))
        ((o.pred_boxes.getD b []).getD r defaultBox)
        ((ts.getD b defaultTarget).labels.getD c 0)
        ((ts.getD b defaultTarget).boxes.getD c defaultBox) := by
  have hc' : c < (tgtSizes ts).getD b 0 := by rw [tgtSizes_getD hb]; exact hc
  have harith : b * P + r < ts.length * P := row_lt_total hb hr
  have hoffc : colOffset (tgtSizes ts) b + c < (tgtSizes ts).sum := by
    have := colOffset_add_le hb
    omega
  rw [sliceAt_getD hwf hb hr hc', costMatrixGlobal_getD hwf harith hoffc]
  have hlb : b < o.pred_logits.length := by rw [hwf.1]; exact hb
  have hbb : b < o.pred_boxes.length := by rw [hwf.2.1]; exact hb
  have hflatlog : o.pred_logits.flatten.length = ts.length * P := by
    rw [length_flatten_uniform P _ hwf.2.2.1, hwf.1]
  have h1 : (outProb expo o).getD (b * P + r) [] =
      softmax expo ((o.pred_logits.getD b []).getD r []) := by
    rw [outProb, getD_map_of_lt _ _ [] _ (by rw [hflatlog]; exact harith),
      flatten_getD_uniform [] P _ b r hwf.2.2.1 hlb hr]
  have h2 : (outBbox o).getD (b * P + r) defaultBox =
      (o.pred_boxes.getD b []).getD r defaultBox := by
    rw [outBbox, flatten_getD_uniform defaultBox P _ b r hwf.2.2.2.1 hbb hr]
  have hlab : ((ts.map Target.labels).getD b []) =
      (ts.getD b defaultTarget).labels := by
    rw [getD_map_of_lt Target.labels _ defaultTarget [] hb]
  have hbox : ((ts.map Target.boxes).getD b []) =
      (ts.getD b defaultTarget).boxes := by
    rw [getD_map_of_lt Target.boxes _ defaultTarget [] hb]
  have h3 : (tgtIds ts).getD (colOffset (tgtSizes ts) b + c) 0 =
      (ts.getD b defaultTarget).labels.getD c 0 := by
    rw [tgtIds, ← colOffset_labels hwf b,
      flatten_getD_sum 0 _ b c (by rw [List.length_map]; exact hb)
        (by rw [hlab, target_labels_len hwf hb]; exact hc), hlab]
  have h4 : (tgtBbox ts).getD (colOffset (tgtSizes ts) b + c) defaultBox =
      (ts.getD b defaultTarget).boxes.getD c defaultBox := by
    rw [tgtBbox, ← colOffset_boxes b,
      flatten_getD_sum defaultBox _ b c (by rw [List.length_map]; exact hb)
        (by rw [hbox]; exact hc), hbox]
  rw [h1, h2, h3, h4]

lemma perBatch_length {m : HungarianMatcher α} {expo : α → α} {o : Outputs α}
    {ts : List (Target α)} {P b : ℕ} (hwf : WellFormed o ts P)
    (hb : b < ts.length) :
    (perBatchCostMatrix m expo (o.pred_logits.getD b [])
      (o.pred_boxes.getD b []) (ts.getD b defaultTarget)).length = P := by
  rw [perBatchCostMatrix, List.length_map, List.length_zip, List.length_map,
    logits_row_len hwf hb, boxes_row_len hwf hb, min_self]

lemma perBatch_row_len {m : HungarianMatcher α} {expo : α → α}
    {o : Outputs α} {ts : List (Target α)} {P b : ℕ}
    (hwf : WellFormed o ts P) (hb : b < ts.length) {row : List α}
    (hrow : row ∈ perBatchCostMatrix m expo (o.pred_logits.getD b [])
      (o.pred_boxes.getD b []) (ts.getD b defaultTarget)) :
    row.length = (ts.getD b defaultTarget).boxes.length := by
  obtain ⟨pr, _, rfl⟩ := List.mem_map.1 hrow
  rw [List.length_map, List.length_zip, target_labels_len hwf hb, min_self]

lemma perBatch_getD {m : HungarianMatcher α} {expo : α → α} {o : Outputs α}
    {ts : List (Target α)} {P b : ℕ} (hwf : WellFormed o ts P)
    (hb : b < ts.length) {r c : ℕ} (hr : r < P)
    (hc : c < (ts.getD b defaultTarget).boxes.length) :
    ((perBatchCostMatrix m expo (o.pred_logits.getD b [])
        (o.pred_boxes.getD b []) (ts.getD b defaultTarget)).getD r []).getD
        c 0 =
      combinedCost m (softmax expo ((o.pred_logits.getD b []).getD r []))
        ((o.pred_boxes.getD b []).getD r defaultBox)
        ((ts.getD b defaultTarget).labels.getD c 0)
        ((ts.getD b defaultTarget).boxes.getD c defaultBox) := by
  have hr1 : r < ((o.pred_logits.getD b []).map (softmax expo)).length := by
    rw [List.length_map, logits_row_len hwf hb]
    exact hr
  have hr2 : r < (o.pred_boxes.getD b []).length := by
    rw [boxes_row_len hwf hb]
    exact hr
  have hrz : r < (((o.pred_logits.getD b []).map (softmax expo)).zip
      (o.pred_boxes.getD b [])).length := by
    rw [List.length_zip]
    omega
  have hc1 : c < (ts.getD b defaultTarget).labels.length := by
    rw [target_labels_len hwf hb]
    exact hc
  have hcz : c < ((ts.getD b defaultTarget).labels.zip
      (ts.getD b defaultTarget).boxes).length := by
    rw [List.length_zip]
    omega
  rw [perBatchCostMatrix, getD_map_of_lt _ _ ([], defaultBox) _ hrz,
    getD_zip_of_lt _ _ _ _ hr1 hr2, getD_map_of_lt _ _ (0, defaultBox) _ hcz,
    getD_zip_of_lt _ _ _ _ hc1 hc,
    getD_map_of_lt (softmax expo) _ [] _ (by rw [logits_row_len hwf hb]; exact hr)]

lemma sliceAt_eq_perBatch {m : HungarianMatcher α} {expo : α → α}
    {o : Outputs α} {ts : List (Target α)} {P b : ℕ}
    (hwf : WellFormed o ts P) (hb : b < ts.length) :
    sliceAt (costMatrixGlobal m expo o ts) P (tgtSizes ts) b =
      perBatchCostMatrix m expo (o.pred_logits.getD b [])
        (o.pred_boxes.getD b []) (ts.getD b defaultTarget) := by
  apply List.ext_getElem
  · rw [sliceAt_length hwf hb, perBatch_length hwf hb]
  intro r h1 h2
  have hr : r < P := by rw [← @sliceAt_length α _ m expo o ts P b hwf hb]; exact h1
  apply List.ext_getElem
  · rw [sliceAt_row_len hwf hb (List.getElem_mem h1), tgtSizes_getD hb,
      perBatch_row_len hwf hb (List.getElem_mem h2)]
  intro c hc1 hc2
  have hc : c < (ts.getD b defaultTarget).boxes.length := by
    rw [← tgtSizes_getD hb, ← sliceAt_row_len hwf hb (List.getElem_mem h1)]
    exact hc1
  have e1 := @sliceAt_entry α _ m expo o ts P b hwf hb r c hr hc
  have e2 := @perBatch_getD α _ m expo o ts P b hwf hb r c hr hc
  rw [List.getD_eq_getElem _ _ h1, List.getD_eq_getElem _ _ hc1] at e1
  rw [List.getD_eq_getElem _ _ h2, List.getD_eq_getElem _ _ hc2] at e2
  rw [e1, e2]

/-! ### The solver applied to a batch slice -/

lemma num_queries_eq {o : Outputs α} {ts : List (Target α)} {P : ℕ}
    (hwf : WellFormed o ts P) (hts : ts ≠ []) :
    (o.pred_logits.headD []).length = P := by
  have h0 : 0 < o.pred_logits.length := by
    rw [hwf.1]
    exact List.length_pos.2 hts
  cases hL : o.pred_logits with
  | nil => rw [hL] at h0; simp at h0
  | cons x xs =>
    simp only [List.headD_cons]
    exact hwf.2.2.1 x (by rw [hL]; exact List.mem_cons_self _ _)

lemma forward_getD {m : HungarianMatcher α} {expo : α → α} {o : Outputs α}
    {ts : List (Target α)} {b : ℕ} (hb : b < ts.length) :
    (HungarianMatcher.forward m expo o ts).getD b ([], []) =
      linear_sum_assignment
        (sliceAt (costMatrixGlobal m expo o ts)
          (o.pred_logits.headD []).length (tgtSizes ts) b) := by
  rw [HungarianMatcher.forward, getD_map_of_lt _ _ 0 _ (by simpa using hb),
    List.getD_eq_getElem _ _ (by simpa using hb), List.getElem_range]

lemma sliceAt_head_len {m : HungarianMatcher α} {expo : α → α}
    {o : Outputs α} {ts : List (Target α)} {P b : ℕ}
    (hwf : WellFormed o ts P) (hb : b < ts.length) (hP : 0 < P) :
    ((sliceAt (costMatrixGlobal m expo o ts) P (tgtSizes ts) b).headD
      []).length = (tgtSizes ts).getD b 0 := by
  have hlen := @sliceAt_length α _ m expo o ts P b hwf hb
  cases hM : sliceAt (costMatrixGlobal m expo o ts) P (tgtSizes ts) b with
  | nil => rw [hM] at hlen; simp at hlen; omega
  | cons x xs =>
    simp only [List.headD_cons]
    exact sliceAt_row_len hwf hb (by rw [hM]; exact List.mem_cons_self _ _)

lemma sliceAt_P_zero (Cg : List (List α)) (sizes : List ℕ) (b : ℕ) :
    sliceAt Cg 0 sizes b = [] := by
  simp [sliceAt]

lemma candidates_zero_left (G : ℕ) : candidates 0 G = [[]] := by
  simp [candidates, rowChoices, colChoices, List.sublistsLen_zero]

lemma lsaPairs_nil : lsaPairs ([] : List (List α)) = [] := by
  unfold lsaPairs
  rw [show ([] : List (List α)).length = 0 from rfl,
    show (([] : List (List α)).headD []).length = 0 from rfl,
    candidates_zero_left]
  rfl

lemma lsaPairs_slice_mem {m : HungarianMatcher α} {expo : α → α}
    {o : Outputs α} {ts : List (Target α)} {P b : ℕ}
    (hwf : WellFormed o ts P) (hb : b < ts.length) :
    lsaPairs (sliceAt (costMatrixGlobal m expo o ts) P (tgtSizes ts) b) ∈
      candidates P ((tgtSizes ts).getD b 0) := by
  rcases Nat.eq_zero_or_pos P with hP | hP
  · subst hP
    rw [sliceAt_P_zero, lsaPairs_nil, candidates_zero_left]
    exact List.mem_cons_self _ _
  · have hM := @sliceAt_length α _ m expo o ts P b hwf hb
    have hhead := @sliceAt_head_len α _ m expo o ts P b hwf hb hP
    have h := lsaPairs_mem
      (sliceAt (costMatrixGlobal m expo o ts) P (tgtSizes ts) b)
    rw [hM, hhead] at h
    exact h

lemma lsaPairs_slice_le {m : HungarianMatcher α} {expo : α → α}
    {o : Outputs α} {ts : List (Target α)} {P b : ℕ}
    (hwf : WellFormed o ts P) (hb : b < ts.length) :
    ∀ l ∈ candidates P ((tgtSizes ts).getD b 0),
      assignCost (sliceAt (costMatrixGlobal m expo o ts) P (tgtSizes ts) b)
          (lsaPairs (sliceAt (costMatrixGlobal m expo o ts) P (tgtSizes ts) b))
        ≤ assignCost (sliceAt (costMatrixGlobal m expo o ts) P (tgtSizes ts) b)
          l := by
  intro l hl
  rcases Nat.eq_zero_or_pos P with hP | hP
  · subst hP
    rw [candidates_zero_left] at hl
    rcases List.mem_cons.1 hl with h1 | h2
    · rw [h1, sliceAt_P_zero, lsaPairs_nil]
    · cases h2
  · have hM := @sliceAt_length α _ m expo o ts P b hwf hb
    have hhead := @sliceAt_head_len α _ m expo o ts P b hwf hb hP
    have h := lsaPairs_le
      (sliceAt (costMatrixGlobal m expo o ts) P (tgtSizes ts) b)
    rw [hM, hhead] at h
    exact h l hl

/-! ### Remaining helper lemmas -/

lemma zip_map_fst_snd (t : List (ℕ × ℕ)) :
    (t.map Prod.fst).zip (t.map Prod.snd) = t := by
  induction t with
  | nil => rfl
  | cons p ps ih => simp [ih]

lemma candidates_zero_right (P : ℕ) : candidates P 0 = [[]] := by
  simp [candidates, rowChoices, colChoices, List.sublistsLen_zero]

lemma lsaPairs_of_head_nil (M : List (List α))
    (h : (M.headD []).length = 0) : lsaPairs M = [] := by
  unfold lsaPairs
  rw [h, candidates_zero_right]
  rfl

lemma candidate_perm_of_square {P : ℕ} {l : List (ℕ × ℕ)}
    (h : l ∈ candidates P P) :
    (l.map Prod.fst).Perm (List.range P) ∧
      (l.map Prod.snd).Perm (List.range P) := by
  obtain ⟨rs, cs, hrs_sub, hrs_len, ⟨s, hs_sub, hs_len, hcs⟩, rfl⟩ :=
    mem_candidates.1 h
  have hcs_len : cs.length = P := by rw [hcs.length_eq, hs_len, min_self]
  have hrs : rs = List.range P :=
    hrs_sub.eq_of_length (by rw [hrs_len, List.length_range, min_self])
  have hs : s = List.range P :=
    hs_sub.eq_of_length (by rw [hs_len, List.length_range, min_self])
  constructor
  · rw [List.map_fst_zip rs cs (by rw [hrs_len, min_self, hcs_len]), hrs]
  · rw [List.map_snd_zip rs cs (by rw [hrs_len, min_self, hcs_len]), ← hs]
    exact hcs

lemma generalized_box_iou_self_of_pos {b : Box α} (h1 : b.c0 < b.c2)
    (h2 : b.c1 < b.c3) : generalized_box_iou b b = 1 := by
  have hw : (0 : α) ≤ b.c2 - b.c0 := by linarith
  have hh : (0 : α) ≤ b.c3 - b.c1 := by linarith
  have hA : (0 : α) < boxArea b := by
    rw [boxArea]
    apply mul_pos <;> linarith
  have hinter : interArea b b = boxArea b := by
    rw [interArea, boxArea, min_self, max_self, min_self, max_self,
      max_eq_right hw, max_eq_right hh]
  have huni : unionArea b b = boxArea b := by
    rw [unionArea, hinter]
    ring
  have hencl : enclosingArea b b = boxArea b := by
    rw [enclosingArea, boxArea, min_self, max_self, min_self, max_self,
      max_eq_right hw, max_eq_right hh]
  rw [generalized_box_iou, box_iou, hinter, huni, hencl, sub_self, zero_div,
    sub_zero, div_self hA.ne']

/-! ### Claim theorems -/

/-- C5: for every batch element whose target count is zero, the Matcher
returns a defined result, namely the pair of empty index sequences. -/
theorem forward_empty_targets_empty_result (m : HungarianMatcher α)
    (expo : α → α) (o : Outputs α) (ts : List (Target α)) (b : ℕ)
    (hb : b < ts.length)
    (h0 : (ts.getD b defaultTarget).boxes.length = 0) :
    (HungarianMatcher.forward m expo o ts).getD b ([], []) = ([], []) := by
  rw [forward_getD hb]
  have hsz : (tgtSizes ts).getD b 0 = 0 := by rw [tgtSizes_getD hb, h0]
  have hhead : ((sliceAt (costMatrixGlobal m expo o ts)
      (o.pred_logits.headD []).length (tgtSizes ts) b).headD []).length
      = 0 := by
    cases hM : sliceAt (costMatrixGlobal m expo o ts)
        (o.pred_logits.headD []).length (tgtSizes ts) b with
    | nil => simp
    | cons x xs =>
      have hx : x ∈ sliceAt (costMatrixGlobal m expo o ts)
          (o.pred_logits.headD []).length (tgtSizes ts) b := by
        rw [hM]
        exact List.mem_cons_self _ _
      obtain ⟨row0, _, rfl⟩ := List.mem_map.1 hx
      simp only [List.headD_cons]
      rw [hsz, List.take_zero]
      rfl
  rw [linear_sum_assignment, lsaPairs_of_head_nil _ hhead]
  rfl

/-- Witness for C5: a batch element with an empty target set yields the
pair of empty index sequences. -/
theorem forward_empty_targets_witness :
    (HungarianMatcher.forward (⟨1, 1, 1⟩ : HungarianMatcher ℚ) id
      ⟨[[[1]]], [[⟨0, 0, 1, 1⟩]]⟩ [⟨[], []⟩]).getD 0 ([], []) = ([], []) :=
  forward_empty_targets_empty_result ⟨1, 1, 1⟩ id
    ⟨[[[1]]], [[⟨0, 0, 1, 1⟩]]⟩ [⟨[], []⟩] 0 (by decide) (by decide)

/-- C6: the Matcher is deterministic: two matchers holding the same three
weights return identical index sequences on identical inputs (and a single
matcher, being a pure function of its inputs, trivially returns the same
output on every call with the same inputs). -/
theorem forward_deterministic (m₁ m₂ : HungarianMatcher α) (expo : α → α)
    (o : Outputs α) (ts : List (Target α))
    (h1 : m₁.cost_class = m₂.cost_class) (h2 : m₁.cost_bbox = m₂.cost_bbox)
    (h3 : m₁.cost_giou = m₂.cost_giou) :
    m₁.forward expo o ts = m₂.forward expo o ts := by
  cases m₁
  cases m₂
  dsimp only at h1 h2 h3
  subst h1
  subst h2
  subst h3
  rfl

/-- Witness for C6 at a concrete input. -/
theorem forward_deterministic_witness :
    HungarianMatcher.forward (⟨1, 2, 3⟩ : HungarianMatcher ℚ) id
        ⟨[[[1, 0]]], [[⟨0, 0, 1, 1⟩]]⟩ [⟨[0], [⟨0, 0, 1, 1⟩]⟩] =
      HungarianMatcher.forward (⟨1, 2, 3⟩ : HungarianMatcher ℚ) id
        ⟨[[[1, 0]]], [[⟨0, 0, 1, 1⟩]]⟩ [⟨[0], [⟨0, 0, 1, 1⟩]⟩] :=
  forward_deterministic ⟨1, 2, 3⟩ ⟨1, 2, 3⟩ id
    ⟨[[[1, 0]]], [[⟨0, 0, 1, 1⟩]]⟩ [⟨[0], [⟨0, 0, 1, 1⟩]⟩] rfl rfl rfl

/-- C7: construction fails (assert) iff all three weights are zero; with at
least one non-zero weight it succeeds and stores the three weights. -/
theorem init_rejects_iff_all_weights_zero (a b c : α) :
    (HungarianMatcher.init a b c = none ↔ a = 0 ∧ b = 0 ∧ c = 0) ∧
      (a ≠ 0 ∨ b ≠ 0 ∨ c ≠ 0 →
        HungarianMatcher.init a b c = some ⟨a, b, c⟩) := by
  constructor
  · constructor
    · intro h
      rw [HungarianMatcher.init] at h
      split_ifs at h with hcond
      push_neg at hcond
      exact hcond
    · rintro ⟨rfl, rfl, rfl⟩
      rw [HungarianMatcher.init]
      simp
  · intro h
    rw [HungarianMatcher.init, if_pos h]

/-- Witness for C7: a non-degenerate configuration is accepted and stored;
the all-zero configuration is rejected. -/
theorem init_validation_witness :
    HungarianMatcher.init (1 : ℚ) 0 0 = some ⟨1, 0, 0⟩ ∧
      HungarianMatcher.init (0 : ℚ) 0 0 = none :=
  ⟨(init_rejects_iff_all_weights_zero (1 : ℚ) 0 0).2 (Or.inl one_ne_zero),
    (init_rejects_iff_all_weights_zero (0 : ℚ) 0 0).1.mpr ⟨rfl, rfl, rfl⟩⟩

/-- C8 (counterexample): the claim fails as stated: the all-zero box is
well-formed in the claim's sense (`x_max ≥ x_min` and `y_max ≥ y_min`), yet
`generalized_box_iou` of it with itself is not 1 (the division by the zero
union/enclosing area does not produce 1). -/
theorem giou_self_degenerate_ne_one :
    (Box.mk (0 : ℚ) 0 0 0).c0 ≤ (Box.mk (0 : ℚ) 0 0 0).c2 ∧
      (Box.mk (0 : ℚ) 0 0 0).c1 ≤ (Box.mk (0 : ℚ) 0 0 0).c3 ∧
      generalized_box_iou (Box.mk (0 : ℚ) 0 0 0) (Box.mk (0 : ℚ) 0 0 0)
        ≠ 1 := by
  refine ⟨le_refl _, le_refl _, ?_⟩
  norm_num [generalized_box_iou, box_iou, interArea, unionArea, boxArea,
    enclosingArea]

/-- C8 (amended): for every corner-form box with positive area
(`x_min < x_max` and `y_min < y_max`), `generalized_box_iou` of the box with
itself is exactly 1. -/
theorem giou_self_eq_one_of_pos_area {b : Box α} (h1 : b.c0 < b.c2)
    (h2 : b.c1 < b.c3) : generalized_box_iou b b = 1 :=
  generalized_box_iou_self_of_pos h1 h2

/-- Witness for the amended C8 at the unit box. -/
theorem giou_self_witness :
    generalized_box_iou (Box.mk (0 : ℚ) 0 1 1) (Box.mk (0 : ℚ) 0 1 1) = 1 :=
  giou_self_eq_one_of_pos_area (by norm_num) (by norm_num)

/-- C9: a `forward` call changes no field of the Matcher (the three weights
keep their construction-time values), and a later call on the post-call
object depends only on its own inputs and the weights. -/
theorem forward_preserves_matcher_state (m : HungarianMatcher α)
    (expo : α → α) (o : Outputs α) (ts : List (Target α)) :
    ((m.forwardS expo o ts).1.cost_class = m.cost_class ∧
      (m.forwardS expo o ts).1.cost_bbox = m.cost_bbox ∧
      (m.forwardS expo o ts).1.cost_giou = m.cost_giou) ∧
      (m.forwardS expo o ts).1 = m ∧
      ∀ (expo₂ : α → α) (o₂ : Outputs α) (ts₂ : List (Target α)),
        ((m.forwardS expo o ts).1).forward expo₂ o₂ ts₂ =
          m.forward expo₂ o₂ ts₂ :=
  ⟨⟨rfl, rfl, rfl⟩, rfl, fun _ _ _ => rfl⟩

/-- C2: every cost-matrix entry (prediction `r`, target `c` of batch element
`b`) equals `cost_bbox · L1-distance of the center-size box 4-vectors +
cost_class · (−softmax probability of the target's class) + cost_giou ·
(−GIoU of the corner-form conversions)`, with the three construction-time
weights. -/
theorem cost_matrix_entry_formula (m : HungarianMatcher α) (expo : α → α)
    (o : Outputs α) (ts : List (Target α)) (P b r c : ℕ)
    (hwf : WellFormed o ts P) (hb : b < ts.length) (hr : r < P)
    (hc : c < (ts.getD b defaultTarget).boxes.length) :
    ((sliceAt (costMatrixGlobal m expo o ts) P (tgtSizes ts) b).getD r
        []).getD c 0 =
      m.cost_bbox *
          l1dist ((o.pred_boxes.getD b []).getD r defaultBox)
            ((ts.getD b defaultTarget).boxes.getD c defaultBox) +
        m.cost_class *
          (-(softmax expo ((o.pred_logits.getD b []).getD r [])).getD
              ((ts.getD b defaultTarget).labels.getD c 0) 0) +
        m.cost_giou *
          (-(generalized_box_iou
              (box_cxcywh_to_xyxy
                ((o.pred_boxes.getD b []).getD r defaultBox))
              (box_cxcywh_to_xyxy
                ((ts.getD b defaultTarget).boxes.getD c defaultBox)))) := by
  rw [sliceAt_entry hwf hb hr hc]
  rfl

/-- Witness for C2 at a concrete one-element batch. -/
theorem cost_matrix_entry_witness :
    ((sliceAt
        (costMatrixGlobal (⟨1, 1, 1⟩ : HungarianMatcher ℚ) id
          ⟨[[[1]]], [[⟨0, 0, 2, 2⟩]]⟩ [⟨[0], [⟨0, 0, 2, 2⟩]⟩]) 1
        (tgtSizes [⟨[0], [⟨0, 0, 2, 2⟩]⟩]) 0).getD 0 []).getD 0 0 =
      (1 : ℚ) *
          l1dist (([(⟨0, 0, 2, 2⟩ : Box ℚ)].getD 0 defaultBox))
            (([(⟨0, 0, 2, 2⟩ : Box ℚ)].getD 0 defaultBox)) +
        1 *
          (-(softmax id ([[(1 : ℚ)]].getD 0 [])).getD
              (([0].getD 0 0)) 0) +
        1 *
          (-(generalized_box_iou
              (box_cxcywh_to_xyxy ([(⟨0, 0, 2, 2⟩ : Box ℚ)].getD 0 defaultBox))
              (box_cxcywh_to_xyxy
                ([(⟨0, 0, 2, 2⟩ : Box ℚ)].getD 0 defaultBox)))) := by
  have h := cost_matrix_entry_formula (⟨1, 1, 1⟩ : HungarianMatcher ℚ) id
    ⟨[[[1]]], [[⟨0, 0, 2, 2⟩]]⟩ [⟨[0], [⟨0, 0, 2, 2⟩]⟩] 1 0 0 0
    (by unfold WellFormed; decide) (by decide) (by decide) (by decide)
  exact h

/-- C4: the cost slice handed to the assignment solver for batch element `b`
(the column block cut out of the global concatenated cost matrix) equals the
cost matrix computed from batch element `b`'s predictions and targets
alone. -/
theorem slice_equals_per_batch_matrix (m : HungarianMatcher α)
    (expo : α → α) (o : Outputs α) (ts : List (Target α)) (P b : ℕ)
    (hwf : WellFormed o ts P) (hb : b < ts.length) :
    sliceAt (costMatrixGlobal m expo o ts) (o.pred_logits.headD []).length
        (tgtSizes ts) b =
      perBatchCostMatrix m expo (o.pred_logits.getD b [])
        (o.pred_boxes.getD b []) (ts.getD b defaultTarget) := by
  have hts : ts ≠ [] := List.length_pos.1 (by omega)
  rw [num_queries_eq hwf hts]
  exact sliceAt_eq_perBatch hwf hb

/-- Witness for C4 at a concrete one-element batch. -/
theorem slice_per_batch_witness :
    sliceAt
        (costMatrixGlobal (⟨1, 1, 1⟩ : HungarianMatcher ℚ) id
          ⟨[[[1]]], [[⟨0, 0, 2, 2⟩]]⟩ [⟨[0], [⟨0, 0, 2, 2⟩]⟩])
        (([[[(1 : ℚ)]]].headD []).length)
        (tgtSizes [⟨[0], [⟨0, 0, 2, 2⟩]⟩]) 0 =
      perBatchCostMatrix (⟨1, 1, 1⟩ : HungarianMatcher ℚ) id
        ([[[(1 : ℚ)]]].getD 0 []) ([[(⟨0, 0, 2, 2⟩ : Box ℚ)]].getD 0 [])
        (([⟨[0], [⟨0, 0, 2, 2⟩]⟩] : List (Target ℚ)).getD 0 defaultTarget) :=
  slice_equals_per_batch_matrix (⟨1, 1, 1⟩ : HungarianMatcher ℚ) id
    ⟨[[[1]]], [[⟨0, 0, 2, 2⟩]]⟩ [⟨[0], [⟨0, 0, 2, 2⟩]⟩] 1 0
    (by unfold WellFormed; decide) (by decide)

/-- C1: the (row, col) pairs the Matcher returns for a batch element form a
minimum-cost assignment: their summed cost on that batch element's cost
slice is ≤ the summed cost of every other valid (non-conflicting, size
`min P Gᵦ`) assignment. -/
theorem forward_returns_min_cost_assignment (m : HungarianMatcher α)
    (expo : α → α) (o : Outputs α) (ts : List (Target α)) (P b : ℕ)
    (l : List (ℕ × ℕ)) (hwf : WellFormed o ts P) (hb : b < ts.length)
    (hG : 0 < (ts.getD b defaultTarget).boxes.length)
    (hf : (l.map Prod.fst).Nodup) (hs : (l.map Prod.snd).Nodup)
    (hbnd : ∀ p ∈ l, p.1 < P ∧ p.2 < (ts.getD b defaultTarget).boxes.length)
    (hlen : l.length = min P (ts.getD b defaultTarget).boxes.length) :
    assignCost (sliceAt (costMatrixGlobal m expo o ts) P (tgtSizes ts) b)
        (((HungarianMatcher.forward m expo o ts).getD b ([], [])).1.zip
          ((HungarianMatcher.forward m expo o ts).getD b ([], [])).2) ≤
      assignCost (sliceAt (costMatrixGlobal m expo o ts) P (tgtSizes ts) b)
        l := by
  have hts : ts ≠ [] := List.length_pos.1 (by omega)
  rw [forward_getD hb, num_queries_eq hwf hts, linear_sum_assignment]
  dsimp only
  rw [zip_map_fst_snd]
  obtain ⟨l₂, hl₂, hp⟩ := exists_candidate_perm l hf hs hbnd hlen
  rw [← tgtSizes_getD hb] at hl₂
  calc
    assignCost (sliceAt (costMatrixGlobal m expo o ts) P (tgtSizes ts) b)
        (lsaPairs (sliceAt (costMatrixGlobal m expo o ts) P (tgtSizes ts) b))
      ≤ assignCost (sliceAt (costMatrixGlobal m expo o ts) P (tgtSizes ts) b)
          l₂ := lsaPairs_slice_le hwf hb l₂ hl₂
    _ = assignCost (sliceAt (costMatrixGlobal m expo o ts) P (tgtSizes ts) b)
          l := assignCost_perm _ hp

/-- Witness for C1: on a concrete 2-prediction, 1-target batch element, the
returned assignment costs no more than the explicit alternative `[(1, 0)]`. -/
theorem forward_min_cost_witness :
    assignCost
        (sliceAt
          (costMatrixGlobal (⟨1, 1, 1⟩ : HungarianMatcher ℚ) id
            ⟨[[[1], [0]]], [[⟨0, 0, 2, 2⟩, ⟨1, 1, 2, 2⟩]]⟩
            [⟨[0], [⟨0, 0, 2, 2⟩]⟩]) 2
          (tgtSizes [⟨[0], [⟨0, 0, 2, 2⟩]⟩]) 0)
        (((HungarianMatcher.forward (⟨1, 1, 1⟩ : HungarianMatcher ℚ) id
              ⟨[[[1], [0]]], [[⟨0, 0, 2, 2⟩, ⟨1, 1, 2, 2⟩]]⟩
              [⟨[0], [⟨0, 0, 2, 2⟩]⟩]).getD 0 ([], [])).1.zip
          ((HungarianMatcher.forward (⟨1, 1, 1⟩ : HungarianMatcher ℚ) id
              ⟨[[[1], [0]]], [[⟨0, 0, 2, 2⟩, ⟨1, 1, 2, 2⟩]]⟩
              [⟨[0], [⟨0, 0, 2, 2⟩]⟩]).getD 0 ([], [])).2) ≤
      assignCost
        (sliceAt
          (costMatrixGlobal (⟨1, 1, 1⟩ : HungarianMatcher ℚ) id
            ⟨[[[1], [0]]], [[⟨0, 0, 2, 2⟩, ⟨1, 1, 2, 2⟩]]⟩
            [⟨[0], [⟨0, 0, 2, 2⟩]⟩]) 2
          (tgtSizes [⟨[0], [⟨0, 0, 2, 2⟩]⟩]) 0)
        [(1, 0)] :=
  forward_returns_min_cost_assignment (⟨1, 1, 1⟩ : HungarianMatcher ℚ) id
    ⟨[[[1], [0]]], [[⟨0, 0, 2, 2⟩, ⟨1, 1, 2, 2⟩]]⟩ [⟨[0], [⟨0, 0, 2, 2⟩]⟩]
    2 0 [(1, 0)] (by unfold WellFormed; decide) (by decide) (by decide)
    (by decide) (by decide) (by decide) (by decide)

/-- C3: the returned index sequences for a batch element both have length
`min(P, Gᵦ)`, repeat no index, stay in range, and are each a permutation of
`[0, N)` when `P = Gᵦ = N`. -/
theorem forward_index_shapes (m : HungarianMatcher α) (expo : α → α)
    (o : Outputs α) (ts : List (Target α)) (P b : ℕ)
    (hwf : WellFormed o ts P) (hb : b < ts.length) :
    ((HungarianMatcher.forward m expo o ts).getD b ([], [])).1.length =
        min P (ts.getD b defaultTarget).boxes.length ∧
      ((HungarianMatcher.forward m expo o ts).getD b ([], [])).2.length =
        min P (ts.getD b defaultTarget).boxes.length ∧
      ((HungarianMatcher.forward m expo o ts).getD b ([], [])).1.Nodup ∧
      ((HungarianMatcher.forward m expo o ts).getD b ([], [])).2.Nodup ∧
      (∀ i ∈ ((HungarianMatcher.forward m expo o ts).getD b ([], [])).1,
        i < P) ∧
      (∀ j ∈ ((HungarianMatcher.forward m expo o ts).getD b ([], [])).2,
        j < (ts.getD b defaultTarget).boxes.length) ∧
      (P = (ts.getD b defaultTarget).boxes.length →
        ((HungarianMatcher.forward m expo o ts).getD b ([], [])).1.Perm
            (List.range P) ∧
          ((HungarianMatcher.forward m expo o ts).getD b ([], [])).2.Perm
            (List.range P)) := by
  have hts : ts ≠ [] := List.length_pos.1 (by omega)
  rw [forward_getD hb, num_queries_eq hwf hts, linear_sum_assignment]
  have hmem := @lsaPairs_slice_mem α _ m expo o ts P b hwf hb
  rw [tgtSizes_getD hb] at hmem
  obtain ⟨hlen, hpair, hnf, hns, hbnd⟩ := candidate_shape hmem
  dsimp only
  refine ⟨?_, ?_, hnf, hns, ?_, ?_, ?_⟩
  · rw [List.length_map, hlen]
  · rw [List.length_map, hlen]
  · intro i hi
    obtain ⟨p, hp, rfl⟩ := List.mem_map.1 hi
    exact (hbnd p hp).1
  · intro j hj
    obtain ⟨p, hp, rfl⟩ := List.mem_map.1 hj
    exact (hbnd p hp).2
  · intro hPG
    rw [← hPG] at hmem
    exact candidate_perm_of_square hmem

/-- Witness for C3 on a concrete square (P = Gᵦ = 1) batch element. -/
theorem forward_index_shapes_witness :
    ((HungarianMatcher.forward (⟨1, 1, 1⟩ : HungarianMatcher ℚ) id
          ⟨[[[1]]], [[⟨0, 0, 2, 2⟩]]⟩ [⟨[0], [⟨0, 0, 2, 2⟩]⟩]).getD 0
        ([], [])).1.length =
        min 1 (([⟨[0], [⟨0, 0, 2, 2⟩]⟩] : List (Target ℚ)).getD 0
          defaultTarget).boxes.length ∧
      ((HungarianMatcher.forward (⟨1, 1, 1⟩ : HungarianMatcher ℚ) id
          ⟨[[[1]]], [[⟨0, 0, 2, 2⟩]]⟩ [⟨[0], [⟨0, 0, 2, 2⟩]⟩]).getD 0
        ([], [])).2.length =
        min 1 (([⟨[0], [⟨0, 0, 2, 2⟩]⟩] : List (Target ℚ)).getD 0
          defaultTarget).boxes.length ∧
      ((HungarianMatcher.forward (⟨1, 1, 1⟩ : HungarianMatcher ℚ) id
          ⟨[[[1]]], [[⟨0, 0, 2, 2⟩]]⟩ [⟨[0], [⟨0, 0, 2, 2⟩]⟩]).getD 0
        ([], [])).1.Nodup ∧
      ((HungarianMatcher.forward (⟨1, 1, 1⟩ : HungarianMatcher ℚ) id
          ⟨[[[1]]], [[⟨0, 0, 2, 2⟩]]⟩ [⟨[0], [⟨0, 0, 2, 2⟩]⟩]).getD 0
        ([], [])).2.Nodup ∧
      (∀ i ∈ ((HungarianMatcher.forward (⟨1, 1, 1⟩ : HungarianMatcher ℚ) id
          ⟨[[[1]]], [[⟨0, 0, 2, 2⟩]]⟩ [⟨[0], [⟨0, 0, 2, 2⟩]⟩]).getD 0
        ([], [])).1, i < 1) ∧
      (∀ j ∈ ((HungarianMatcher.forward (⟨1, 1, 1⟩ : HungarianMatcher ℚ) id
          ⟨[[[1]]], [[⟨0, 0, 2, 2⟩]]⟩ [⟨[0], [⟨0, 0, 2, 2⟩]⟩]).getD 0
        ([], [])).2,
        j < (([⟨[0], [⟨0, 0, 2, 2⟩]⟩] : List (Target ℚ)).getD 0
          defaultTarget).boxes.length) ∧
      (1 = (([⟨[0], [⟨0, 0, 2, 2⟩]⟩] : List (Target ℚ)).getD 0
          defaultTarget).boxes.length →
        ((HungarianMatcher.forward (⟨1, 1, 1⟩ : HungarianMatcher ℚ) id
            ⟨[[[1]]], [[⟨0, 0, 2, 2⟩]]⟩ [⟨[0], [⟨0, 0, 2, 2⟩]⟩]).getD 0
          ([], [])).1.Perm (List.range 1) ∧
          ((HungarianMatcher.forward (⟨1, 1, 1⟩ : HungarianMatcher ℚ) id
              ⟨[[[1]]], [[⟨0, 0, 2, 2⟩]]⟩ [⟨[0], [⟨0, 0, 2, 2⟩]⟩]).getD 0
            ([], [])).2.Perm (List.range 1)) :=
  forward_index_shapes (⟨1, 1, 1⟩ : HungarianMatcher ℚ) id
    ⟨[[[1]]], [[⟨0, 0, 2, 2⟩]]⟩ [⟨[0], [⟨0, 0, 2, 2⟩]⟩] 1 0
    (by unfold WellFormed; decide) (by decide)

/-- C10: the returned prediction-index sequence is strictly increasing, and
the `k`-th listed target index is the one the solver's chosen assignment
pairs with the `k`-th listed prediction index. -/
theorem forward_rows_sorted_positional (m : HungarianMatcher α)
    (expo : α → α) (o : Outputs α) (ts : List (Target α)) (P b : ℕ)
    (hwf : WellFormed o ts P) (hb : b < ts.length) :
    ((HungarianMatcher.forward m expo o ts).getD b ([], [])).1.Pairwise
        (· < ·) ∧
      ∀ k, k <
          ((HungarianMatcher.forward m expo o ts).getD b ([], [])).1.length →
        (((HungarianMatcher.forward m expo o ts).getD b ([], [])).1.getD k 0,
          ((HungarianMatcher.forward m expo o ts).getD b ([], [])).2.getD
            k 0) ∈
          lsaPairs (sliceAt (costMatrixGlobal m expo o ts) P (tgtSizes ts)
            b) := by
  have hts : ts ≠ [] := List.length_pos.1 (by omega)
  rw [forward_getD hb, num_queries_eq hwf hts, linear_sum_assignment]
  have hmem := @lsaPairs_slice_mem α _ m expo o ts P b hwf hb
  obtain ⟨hlen, hpair, hnf, hns, hbnd⟩ := candidate_shape hmem
  dsimp only
  refine ⟨hpair, ?_⟩
  intro k hk
  have hk' : k <
      (lsaPairs (sliceAt (costMatrixGlobal m expo o ts) P (tgtSizes ts)
        b)).length := by
    rw [List.length_map] at hk
    exact hk
  rw [List.getD_eq_getElem _ _ hk, List.getElem_map,
    List.getD_eq_getElem _ _ (by rw [List.length_map]; exact hk'),
    List.getElem_map]
  exact List.getElem_mem hk'

/-- Witness for C10 on a concrete batch element. -/
theorem forward_rows_sorted_witness :
    ((HungarianMatcher.forward (⟨1, 1, 1⟩ : HungarianMatcher ℚ) id
          ⟨[[[1]]], [[⟨0, 0, 2, 2⟩]]⟩ [⟨[0], [⟨0, 0, 2, 2⟩]⟩]).getD 0
        ([], [])).1.Pairwise (· < ·) ∧
      ∀ k, k <
          ((HungarianMatcher.forward (⟨1, 1, 1⟩ : HungarianMatcher ℚ) id
              ⟨[[[1]]], [[⟨0, 0, 2, 2⟩]]⟩ [⟨[0], [⟨0, 0, 2, 2⟩]⟩]).getD 0
            ([], [])).1.length →
        (((HungarianMatcher.forward (⟨1, 1, 1⟩ : HungarianMatcher ℚ) id
              ⟨[[[1]]], [[⟨0, 0, 2, 2⟩]]⟩ [⟨[0], [⟨0, 0, 2, 2⟩]⟩]).getD 0
            ([], [])).1.getD k 0,
          ((HungarianMatcher.forward (⟨1, 1, 1⟩ : HungarianMatcher ℚ) id
              ⟨[[[1]]], [[⟨0, 0, 2, 2⟩]]⟩ [⟨[0], [⟨0, 0, 2, 2⟩]⟩]).getD 0
            ([], [])).2.getD k 0) ∈
          lsaPairs (sliceAt
            (costMatrixGlobal (⟨1, 1, 1⟩ : HungarianMatcher ℚ) id
              ⟨[[[1]]], [[⟨0, 0, 2, 2⟩]]⟩ [⟨[0], [⟨0, 0, 2, 2⟩]⟩]) 1
            (tgtSizes [⟨[0], [⟨0, 0, 2, 2⟩]⟩]) 0) :=
  forward_rows_sorted_positional (⟨1, 1, 1⟩ : HungarianMatcher ℚ) id
    ⟨[[[1]]], [[⟨0, 0, 2, 2⟩]]⟩ [⟨[0], [⟨0, 0, 2, 2⟩]⟩] 1 0
    (by unfold WellFormed; decide) (by decide)

end SurvDETR
